import Mathlib

/-!
Verification of `scripts/documentation/tsdoc.ts` (TypeScript documentation
generator).  Strings are modelled as `List Char` (JavaScript strings are
sequences of UTF-16 code units; all data handled by this script is plain
text).  Filesystem access (`fs.existsSync`) is modelled by an oracle
`List Char → Bool`; recursion depth of the source's unbounded recursion is
modelled by an explicit fuel parameter, `none` meaning the recursion does
not reach a base case within the given fuel.  The multiline regex
assertions `^` and `$` are modelled with `'\n'` as the line terminator
(the only one occurring in the data this script handles).
-/

set_option maxRecDepth 40000

set_option maxHeartbeats 1600000

namespace Tsdoc

/-! ## JavaScript string primitives -/

/-- First index at which `needle` occurs in the haystack (`String.prototype.indexOf`
restricted to its hit/miss behaviour), as an `Option Nat`. -/
def firstIdxOf? (needle : List Char) : List Char → Option Nat
  | [] => if needle.isEmpty then some 0 else none
  | c :: rest =>
    if needle.isPrefixOf (c :: rest) then some 0
    else (firstIdxOf? needle rest).map (· + 1)

/-- `String.prototype.indexOf`: first occurrence index, `-1` when absent. -/
def jsIndexOf (needle hay : List Char) : Int :=
  match firstIdxOf? needle hay with
  | some i => (i : Int)
  | none => -1

/-- Last index of a single character, as an `Option Nat`. -/
def lastIdxOf? (c : Char) : List Char → Option Nat
  | [] => none
  | x :: rest =>
    match lastIdxOf? c rest with
    | some j => some (j + 1)
    | none => if x = c then some 0 else none

/-- `String.prototype.lastIndexOf` for a single character: `-1` when absent. -/
def jsLastIndexOf (c : Char) (hay : List Char) : Int :=
  match lastIdxOf? c hay with
  | some j => (j : Int)
  | none => -1

/-- Clamp an integer index to `[0, len]` (the coercion performed by
`String.prototype.substring` on each argument). -/
def clampIdx (len : Nat) (i : Int) : Nat :=
  (min (max i 0) (len : Int)).toNat

/-- `String.prototype.substring`: both arguments clamped to `[0, length]`,
swapped when out of order, then the slice `[lo, hi)` is returned. -/
def jsSubstring (s : List Char) (a b : Int) : List Char :=
  let a' := clampIdx s.length a
  let b' := clampIdx s.length b
  (s.take (max a' b')).drop (min a' b')

/-- `String.prototype.includes`. -/
def jsIncludes (needle hay : List Char) : Bool :=
  (firstIdxOf? needle hay).isSome

/-- `String.prototype.toLowerCase` (ASCII; module names are ASCII). -/
def jsToLower (s : List Char) : List Char :=
  s.map Char.toLower

/-- Strict lexicographic order on UTF-16 code units (JavaScript `<` on strings). -/
def jsStrLt : List Char → List Char → Bool
  | [], [] => false
  | [], _ :: _ => true
  | _ :: _, [] => false
  | a :: as, b :: bs =>
    if a.val < b.val then true
    else if b.val < a.val then false
    else jsStrLt as bs

/-- JavaScript `a > b` on strings. -/
def jsStrGt (a b : List Char) : Bool :=
  jsStrLt b a

/-! ## Constants from the source -/

def FOUNDATION : List Char := ("foundation").data

def ADAPTER : List Char := ("adapter").data

def README_FILE : List Char := ("README.md").data

/-- The needle of `filePath.indexOf('/mdc-')`. -/
def mdcNeedle : List Char := ("/mdc-").data

/-! ## `getFilePathName` (directory resolution, claim C1)

Source (tsdoc.ts, lines 197–212):
```
const startingIndex = filePath.indexOf('/mdc-') + 1;
const endIndex = filePath.lastIndexOf('/');
const directoryPath = filePath.substring(startingIndex, endIndex);
if (fs.existsSync(path.resolve('packages', directoryPath, README_FILE))) {
  return directoryPath;
}
return this.getFilePathName(directoryPath);
```
The `return ''` after the `try` block is reachable only when an exception
escapes the recursive call, which never happens in a pure execution;
a `none` result of the fuel-indexed model means the recursion never
reaches a base case. -/

/-- One step of the directory resolution: the `directoryPath` computed from
`filePath` by `getFilePathName` before the README existence test. -/
def stepPath (filePath : List Char) : List Char :=
  jsSubstring filePath (jsIndexOf mdcNeedle filePath + 1) (jsLastIndexOf '/' filePath)

/-- `getFilePathName`, with `fs.existsSync('packages/<dir>/README.md')`
abstracted into the oracle `readmeExists` applied to `<dir>`, and recursion
modelled with explicit fuel (`none` = the recursion never returns). -/
def getFilePathName (readmeExists : List Char → Bool) : Nat → List Char → Option (List Char)
  | 0, _ => none
  | fuel + 1, filePath =>
    let directoryPath := stepPath filePath
    if readmeExists directoryPath then some directoryPath
    else getFilePathName readmeExists fuel directoryPath

/-- The chain of candidate directories examined by `getFilePathName`:
`nthDirectoryPath filePath k` is the `directoryPath` tested against
`packages/<path>/README.md` on the k-th step of the walk (the first
candidate is `stepPath filePath`, each further step takes the parent
substring of the previous candidate). -/
def nthDirectoryPath (filePath : List Char) : Nat → List Char
  | 0 => stepPath filePath
  | k + 1 => stepPath (nthDirectoryPath filePath k)

/-! ## Data model (interfaces of tsdoc.ts) -/

/-- `interface ModuleEvents { documentation: string }`; built from
`content.value`, which is optional in `DocumentationContent`. -/
structure ModuleEvents where
  documentation : Option (List Char)
deriving DecidableEq

/-- `interface ModuleMethods`. -/
structure ModuleMethods where
  methodSignature : List Char
  documentation : List Char
deriving DecidableEq

/-- `interface ModuleProperties`. -/
structure ModuleProperties where
  name : List Char
  type : List Char
  documentation : List Char
deriving DecidableEq

/-- `interface ModuleMarkdown`.  The source declares the three member lists
as optional but always constructs them (tsdoc.ts, lines 105–111). -/
structure ModuleMarkdown where
  methods : List ModuleMethods
  events : List ModuleEvents
  properties : List ModuleProperties
  moduleName : List Char
  readmeDirectoryPath : List Char
deriving DecidableEq

/-- `interface ModuleDocumentation { events: ModuleEvents[] }`. -/
structure ModuleDocumentation where
  events : List ModuleEvents
deriving DecidableEq

/-- `interface DocumentationContent { tag?: string; value?: string }`. -/
structure DocumentationContent where
  tag : Option (List Char)
  value : Option (List Char)
deriving DecidableEq

/-- A documentalist documentation block: `contentsRaw` is the raw comment
string, `contents` the parsed tagged entries (optional, tested by the
source before use). -/
structure DocumentationBlock where
  contentsRaw : List Char
  contents : Option (List DocumentationContent)
deriving DecidableEq

/-- `item.flags` of a documentalist member. -/
structure Flags where
  isProtected : Bool
  isStatic : Bool
deriving DecidableEq

/-- The part of `method.signatures[0]` the source reads. -/
structure MethodSignature where
  type : List Char
  documentation : Option DocumentationBlock
deriving DecidableEq

/-- A documentalist method record.  The source only ever reads
`signatures[0]` (documentalist emits at least one signature per method),
modelled here as the field `signatures0`. -/
structure RawMethod where
  name : List Char
  signatures0 : MethodSignature
  flags : Flags
deriving DecidableEq

/-- A documentalist property record. -/
structure RawProperty where
  name : List Char
  type : List Char
  documentation : Option DocumentationBlock
  flags : Flags
deriving DecidableEq

/-- One entry of `docData` (the documentalist output for one esmodule). -/
structure RawEsModule where
  kind : List Char
  fileName : List Char
  documentation : Option DocumentationBlock
  methods : Option (List RawMethod)
  properties : Option (List RawProperty)
deriving DecidableEq

/-! ## Transformer (member extraction and normalisation) -/

/-- `cleanComment` (tsdoc.ts, lines 324–327): `comment.replace(/\n/gm, ' ')`. -/
def cleanComment (comment : List Char) : List Char :=
  comment.map (fun c => if c = '\n' then ' ' else c)

/-- `shouldIgnoreDocumentationItem` (tsdoc.ts, lines 314–318): despite its
name it returns `true` for items that should be KEPT.  `opts.hasDocumentation`
receives a truthy test of the documentation object, modelled as a `Bool`. -/
def shouldIgnoreDocumentationItem (flags : Flags) (hasDocumentation : Bool) : Bool :=
  !flags.isProtected && !flags.isStatic && hasDocumentation

/-- Output record of the method mapper (tsdoc.ts, lines 157–165).  The map
dereferences `signatures[0].documentation.contentsRaw`; the filter has
already guaranteed the documentation object is present, so the `getD`
default is unreachable. -/
def methodEntryOf (m : RawMethod) : ModuleMethods :=
  { documentation := cleanComment ((m.signatures0.documentation.map DocumentationBlock.contentsRaw).getD [])
    methodSignature := m.name ++ m.signatures0.type }

/-- `getDocumentationForMethods` (tsdoc.ts, lines 149–166).  `hasDocData`
models the truthiness of `this.docData`; the `methods` argument models
`this.docData[esmodule].methods`, which is optional. -/
def getDocumentationForMethods (hasDocData : Bool) (methods : Option (List RawMethod)) :
    List ModuleMethods :=
  if !hasDocData || methods.isNone then []
  else
    ((methods.getD []).filter
      (fun m => shouldIgnoreDocumentationItem m.flags m.signatures0.documentation.isSome)).map
      methodEntryOf

/-- Output record of the property mapper (tsdoc.ts, lines 181–189). -/
def propertyEntryOf (p : RawProperty) : ModuleProperties :=
  { documentation := cleanComment ((p.documentation.map DocumentationBlock.contentsRaw).getD [])
    name := p.name
    type := p.type }

/-- `getDocumentationProperties` (tsdoc.ts, lines 173–190). -/
def getDocumentationProperties (hasDocData : Bool) (properties : Option (List RawProperty)) :
    List ModuleProperties :=
  if !hasDocData || properties.isNone then []
  else
    ((properties.getD []).filter
      (fun p => shouldIgnoreDocumentationItem p.flags p.documentation.isSome)).map
      propertyEntryOf

/-- JavaScript truthiness of an optional string (`undefined` and `''` are falsy). -/
def jsTruthyStr (o : Option (List Char)) : Bool :=
  match o with
  | none => false
  | some t => !t.isEmpty

/-- `getDocumentationForEvents` (tsdoc.ts, lines 138–142):
`documentation.contents.filter(c => c.tag && c.tag === 'events').map(...)`.
A `none` result models the `TypeError` thrown when `documentation` or
`contents` is absent (the source dereferences them unconditionally here). -/
def getDocumentationForEvents (m : RawEsModule) : Option (List ModuleEvents) :=
  match m.documentation with
  | none => none
  | some doc =>
    match doc.contents with
    | none => none
    | some cs =>
      some ((cs.filter
        (fun c => jsTruthyStr c.tag && c.tag == some (("events").data))).map
        (fun c => { documentation := c.value }))

/-- `getDocumentationForModule` (tsdoc.ts, lines 121–131).  A `none` result
models an uncaught `TypeError`. -/
def getDocumentationForModule (hasDocData : Bool) (m : RawEsModule) :
    Option ModuleDocumentation :=
  if !hasDocData || !m.documentation.isSome
      || !(match m.documentation with
           | some d => d.contents.isSome
           | none => false) then
    some { events := [] }
  else
    (getDocumentationForEvents m).map (fun evts => { events := evts })

/-! ## Renderer: sorting and filtering (tsdoc.ts, lines 267–269 and 294–307) -/

/-- `sortByModuleType` (tsdoc.ts, lines 294–307), the comparator passed to
`Array.prototype.sort`. -/
def sortByModuleType (a b : ModuleMarkdown) : Int :=
  let moduleA := jsToLower a.moduleName
  let moduleB := jsToLower b.moduleName
  if !jsIncludes FOUNDATION moduleA && !jsIncludes ADAPTER moduleA then
    -1
  else if jsIncludes FOUNDATION moduleA && !jsIncludes FOUNDATION moduleB then
    1
  else if (jsIncludes FOUNDATION moduleA && jsIncludes FOUNDATION moduleB)
      || (jsIncludes ADAPTER moduleA && jsIncludes ADAPTER moduleB) then
    if jsStrGt moduleA moduleB then 1 else -1
  else
    0

/-- Stable insertion of one element with respect to a JavaScript comparator:
the new element is placed before the first existing element `y` with
`cmp x y < 0` and after every earlier one, as a stable comparison sort
demands (`Array.prototype.sort` is required to be stable since ES2019). -/
def insertCmp (cmp : α → α → Int) (x : α) : List α → List α
  | [] => [x]
  | y :: ys => if cmp x y < 0 then x :: y :: ys else y :: insertCmp cmp x ys

/-- Stable insertion sort with a JavaScript comparator, modelling
`Array.prototype.sort(cmp)`. -/
def sortStable (cmp : α → α → Int) (l : List α) : List α :=
  l.foldl (fun acc x => insertCmp cmp x acc) []

/-- The module list handed to the template renderer (tsdoc.ts, lines
267–269): drop records whose three member lists are all empty, then sort
with `sortByModuleType`. -/
def modulesForRender (mods : List ModuleMarkdown) : List ModuleMarkdown :=
  sortStable sortByModuleType
    (mods.filter (fun m =>
      m.methods.length != 0 || m.properties.length != 0 || m.events.length != 0))

/-! ## Writer: the sentinel-region splice (tsdoc.ts, lines 263–284)

The source builds `new RegExp('^' + start + '\\n(.|\\n)*' + end + '$', 'gm')`
and calls `readmeMd.replace(regex, start + '\n' + table + '\n' + end)`.
With the multiline flag, `^` matches at the string start or after a
newline and `$` at the string end or before a newline; the greedy
`(.|\n)*` extends the single match from the first start-sentinel line to
the LAST end-sentinel at a line end, so at most one region is replaced per
pass.  The replacement string undergoes ECMAScript `GetSubstitution`
(`$$`, `$&`, `$\x60`, `$\x27`, `$1` are active; the regex has one capture
group, holding the last character the star consumed). -/

def startReplacerToken : List Char :=
  ("<!-- docgen-tsdoc-replacer:start __DO NOT EDIT, This section is automatically generated__ -->").data

def endReplacerToken : List Char :=
  ("<!-- docgen-tsdoc-replacer:end -->").data

/-- `^` assertion of the multiline regex at position `p`. -/
def lineStartAt (s : List Char) (p : Nat) : Bool :=
  p == 0 || s.get? (p - 1) == some '\n'

/-- `$` assertion of the multiline regex at position `q`. -/
def lineEndAt (s : List Char) (q : Nat) : Bool :=
  q == s.length || s.get? q == some '\n'

/-- The regex prefix `^<start>\n` matches at position `p`. -/
def startMatchAt (s : List Char) (p : Nat) : Bool :=
  lineStartAt s p && (startReplacerToken ++ ['\n']).isPrefixOf (s.drop p)

/-- The regex suffix `<end>$` matches with the end token starting at `q`. -/
def endMatchAt (s : List Char) (q : Nat) : Bool :=
  endReplacerToken.isPrefixOf (s.drop q) && lineEndAt s (q + endReplacerToken.length)

/-- Largest `i ≤ n` with `P i`, scanning downward. -/
def lastSuchThat (P : Nat → Bool) : Nat → Option Nat
  | 0 => if P 0 then some 0 else none
  | n + 1 => if P (n + 1) then some (n + 1) else lastSuchThat P n

/-- Smallest `i` with `P i`, scanning upward from `i0` for `fuel` steps. -/
def firstSuchThatAux (P : Nat → Bool) : Nat → Nat → Option Nat
  | 0, _ => none
  | fuel + 1, i => if P i then some i else firstSuchThatAux P fuel (i + 1)

/-- Smallest `i < n` with `P i`. -/
def firstSuchThat (P : Nat → Bool) (n : Nat) : Option Nat :=
  firstSuchThatAux P n 0

/-- ECMAScript `GetSubstitution` specialised to this call: one capture
group (`group1`), `matched` the matched substring, `before`/`after` the
text left and right of the match.  `$$`, `$&`, `` $` ``, `$'` and `$1` are
the active escapes; any other `$` is literal. -/
def getSubstitution (matched before after group1 : List Char) : List Char → List Char
  | [] => []
  | c :: rest =>
    if c = '$' then
      match rest with
      | [] => ['$']
      | d :: rest2 =>
        if d = '$' then '$' :: getSubstitution matched before after group1 rest2
        else if d = '&' then matched ++ getSubstitution matched before after group1 rest2
        else if d = Char.ofNat 96 then before ++ getSubstitution matched before after group1 rest2
        else if d = Char.ofNat 39 then after ++ getSubstitution matched before after group1 rest2
        else if d = '1' then group1 ++ getSubstitution matched before after group1 rest2
        else '$' :: getSubstitution matched before after group1 (d :: rest2)
    else c :: getSubstitution matched before after group1 rest

/-- The replacement string `start + '\n' + apiMarkdownTable + '\n' + end`. -/
def replTemplate (table : List Char) : List Char :=
  startReplacerToken ++ '\n' :: table ++ '\n' :: endReplacerToken

/-- Value of capture group 1 after the greedy star has backtracked to end
position `qstar`: the last consumed character, or undefined (empty) when
the star matched nothing. -/
def group1At (s : List Char) (p qstar : Nat) : List Char :=
  if p + startReplacerToken.length + 1 < qstar then
    ((s.get? (qstar - 1)).map (fun c => [c])).getD []
  else []

/-- The `readmeMd.replace(regex, ...)` splice (tsdoc.ts, lines 272–280):
the single match runs from the first `^<start>\n` position to the last
`<end>$` position, and is replaced by the substituted template. -/
def replaceGeneratedRegion (table readme : List Char) : List Char :=
  match lastSuchThat (endMatchAt readme) readme.length with
  | none => readme
  | some qstar =>
    match firstSuchThat
        (fun p => startMatchAt readme p
          && decide (p + startReplacerToken.length + 1 ≤ qstar))
        (readme.length + 1) with
    | none => readme
    | some p =>
      let matchEnd := qstar + endReplacerToken.length
      let before := readme.take p
      let matched := (readme.take matchEnd).drop p
      let after := readme.drop matchEnd
      before
        ++ getSubstitution matched before after (group1At readme p qstar) (replTemplate table)
        ++ after

/-- `insertMethodDescriptionTable` (tsdoc.ts, lines 263–284), with the
Handlebars template function abstracted as `render` and the README text
passed in place of the file read. -/
def insertMethodDescriptionTable (render : List ModuleMarkdown → List Char)
    (mods : List ModuleMarkdown) (readmeMd : List Char) : List Char :=
  replaceGeneratedRegion (render (modulesForRender mods)) readmeMd

/-! ## Writer: per-directory generation (tsdoc.ts, lines 232–254) -/

/-- The allow-list of the staged rollout. -/
def allowList : List (List Char) :=
  [("mdc-drawer").data]

/-- `./packages/${readmeDirectoryPath}/${README_FILE}`. -/
def readmeDestinationPath (dir : List Char) : List Char :=
  ("./packages/").data ++ dir ++ ("/").data ++ README_FILE

/-- `generateMarkdownFileFromBuffer` (tsdoc.ts, lines 232–254): for every
buffer entry whose key survives `allowList.some(a => key.includes(a))` the
README at `readmeDestinationPath` is read (`readFs`), spliced and written
back; the returned association list collects exactly the performed
read/write paths with the written contents.  Non-allow-listed keys produce
no filesystem access at all. -/
def generateMarkdownFileFromBuffer (render : List ModuleMarkdown → List Char)
    (readFs : List Char → List Char)
    (buffer : List (List Char × List ModuleMarkdown)) :
    List (List Char × List Char) :=
  buffer.filterMap (fun entry =>
    if allowList.any (fun allowed => jsIncludes allowed entry.fst) then
      some (readmeDestinationPath entry.fst,
        insertMethodDescriptionTable render entry.snd (readFs (readmeDestinationPath entry.fst)))
    else none)

/-- Bounded check that the splice regex matches somewhere in `s`: a start
assertion position and a compatible later end assertion position exist. -/
def hasSentinelRegion (s : List Char) : Bool :=
  (List.range (s.length + 1)).any (fun p =>
    startMatchAt s p && (List.range (s.length + 1)).any (fun q =>
      endMatchAt s q && decide (p + startReplacerToken.length + 1 ≤ q)))

/-! ## Concrete fixtures used by witnesses and counterexamples -/

/-- A module record with the given name and empty member lists (the
comparator only reads `moduleName`). -/
def exampleModule (name : List Char) : ModuleMarkdown :=
  { methods := [], events := [], properties := [], moduleName := name,
    readmeDirectoryPath := [] }

/-- A README consisting of exactly one well-formed sentinel region around
placeholder text. -/
def exampleReadme : List Char :=
  startReplacerToken ++ '\n' :: ((("placeholder").data) ++ ('\n' :: endReplacerToken))

/-- A raw module record carrying no documentation block at all. -/
def undocumentedEsModule : RawEsModule :=
  { kind := ("class").data, fileName := ("packages/mdc-drawer/component.ts").data,
    documentation := none, methods := none, properties := none }

/-! ### Lemmas about the string primitives -/

theorem firstIdxOf?_isPrefix {needle s : List Char} {i : Nat}
    (h : firstIdxOf? needle s = some i) : needle.isPrefixOf (s.drop i) = true := by
  induction s generalizing i with
  | nil =>
    unfold firstIdxOf? at h
    by_cases hn : needle.isEmpty
    · simp [hn] at h
      subst h
      simp [List.isEmpty_iff] at hn
      simp [hn, List.isPrefixOf]
    · simp [hn] at h
  | cons c rest ih =>
    unfold firstIdxOf? at h
    by_cases hp : needle.isPrefixOf (c :: rest)
    · simp [hp] at h
      subst h
      simpa using hp
    · simp [hp, Option.map_eq_some'] at h
      obtain ⟨j, hj, rfl⟩ := h
      simpa using ih hj

theorem firstIdxOf?_bound {needle s : List Char} {i : Nat}
    (h : firstIdxOf? needle s = some i) : i + needle.length ≤ s.length := by
  induction s generalizing i with
  | nil =>
    unfold firstIdxOf? at h
    by_cases hn : needle.isEmpty
    · simp [hn] at h
      subst h
      simp [List.isEmpty_iff] at hn
      simp [hn]
    · simp [hn] at h
  | cons c rest ih =>
    unfold firstIdxOf? at h
    by_cases hp : needle.isPrefixOf (c :: rest)
    · simp [hp] at h
      subst h
      rw [List.isPrefixOf_iff_prefix] at hp
      simpa using hp.length_le
    · simp [hp, Option.map_eq_some'] at h
      obtain ⟨j, hj, rfl⟩ := h
      have := ih hj
      simp
      omega

theorem firstIdxOf?_subset {needle s : List Char} {i : Nat}
    (h : firstIdxOf? needle s = some i) {c : Char} (hc : c ∈ needle) : c ∈ s := by
  have hp := firstIdxOf?_isPrefix h
  rw [List.isPrefixOf_iff_prefix] at hp
  exact List.mem_of_mem_drop (hp.subset hc)

theorem lastIdxOf?_lt {c : Char} {s : List Char} {j : Nat}
    (h : lastIdxOf? c s = some j) : j < s.length := by
  induction s generalizing j with
  | nil => simp [lastIdxOf?] at h
  | cons x rest ih =>
    unfold lastIdxOf? at h
    cases hrest : lastIdxOf? c rest with
    | some j' =>
      rw [hrest] at h
      simp at h
      have := ih hrest
      simp
      omega
    | none =>
      rw [hrest] at h
      by_cases hx : x = c
      · simp [hx] at h
        subst h
        simp
      · simp [hx] at h

theorem lastIdxOf?_isSome_of_mem {c : Char} {s : List Char}
    (h : c ∈ s) : (lastIdxOf? c s).isSome := by
  induction s with
  | nil => simp at h
  | cons x rest ih =>
    unfold lastIdxOf?
    rcases List.mem_cons.mp h with hx | hm
    · cases hrest : lastIdxOf? c rest with
      | some j' => simp
      | none => simp [hx]
    · cases hrest : lastIdxOf? c rest with
      | some j' => simp
      | none =>
        have := ih hm
        rw [hrest] at this
        simp at this

theorem lastIdxOf?_mem {c : Char} {s : List Char} {j : Nat}
    (h : lastIdxOf? c s = some j) : c ∈ s := by
  induction s generalizing j with
  | nil => simp [lastIdxOf?] at h
  | cons x rest ih =>
    unfold lastIdxOf? at h
    cases hrest : lastIdxOf? c rest with
    | some j' => exact List.mem_cons_of_mem x (ih hrest)
    | none =>
      rw [hrest] at h
      by_cases hx : x = c
      · simp [hx]
      · simp [hx] at h

/-- If the path has no separator at all, one resolution step yields the empty path. -/
theorem stepPath_of_no_slash {s : List Char} (h : '/' ∉ s) : stepPath s = [] := by
  have hlast : lastIdxOf? '/' s = none := by
    cases hl : lastIdxOf? '/' s with
    | some j => exact absurd (lastIdxOf?_mem hl) h
    | none => rfl
  have hfirst : firstIdxOf? mdcNeedle s = none := by
    cases hf : firstIdxOf? mdcNeedle s with
    | some i =>
      have : '/' ∈ s := firstIdxOf?_subset hf (by decide)
      exact absurd this h
    | none => rfl
  unfold stepPath jsIndexOf jsLastIndexOf
  rw [hlast, hfirst]
  simp [jsSubstring, clampIdx]

/-- One resolution step strictly shrinks a nonempty path. -/
theorem stepPath_length_lt {s : List Char} (h : s ≠ []) :
    (stepPath s).length < s.length := by
  have hpos : 0 < s.length := List.length_pos.mpr h
  by_cases hs : '/' ∈ s
  · have ⟨j, hj⟩ : ∃ j, lastIdxOf? '/' s = some j := by
      have := lastIdxOf?_isSome_of_mem hs
      cases hl : lastIdxOf? '/' s with
      | some j => exact ⟨j, rfl⟩
      | none => rw [hl] at this; simp at this
    have hjlt : j < s.length := lastIdxOf?_lt hj
    unfold stepPath jsIndexOf jsLastIndexOf
    rw [hj]
    cases hf : firstIdxOf? mdcNeedle s with
    | none =>
      simp only [jsSubstring, clampIdx]
      have ha : (min (max (-1 + 1 : Int) 0) ((s.length : Nat) : Int)).toNat = 0 := by
        omega
      have hb : (min (max ((j : Int)) 0) ((s.length : Nat) : Int)).toNat = j := by
        omega
      rw [ha, hb]
      rw [List.length_drop, List.length_take]
      omega
    | some i =>
      have hbound : i + mdcNeedle.length ≤ s.length := firstIdxOf?_bound hf
      have hm5 : mdcNeedle.length = 5 := by decide
      simp only [jsSubstring, clampIdx]
      have ha : (min (max ((i : Int) + 1) 0) ((s.length : Nat) : Int)).toNat = i + 1 := by
        omega
      have hb : (min (max ((j : Int)) 0) ((s.length : Nat) : Int)).toNat = j := by
        omega
      rw [ha, hb]
      rw [List.length_drop, List.length_take]
      omega
  · rw [stepPath_of_no_slash hs]
    simpa using hpos

/-- The resolution step is a self-loop on the empty path. -/
theorem stepPath_nil : stepPath [] = [] := by decide

/-- Under an oracle with no README anywhere, the recursion never reaches a
base case, whatever the fuel. -/
theorem getFilePathName_noReadme (fuel : Nat) (s : List Char) :
    getFilePathName (fun _ => false) fuel s = none := by
  induction fuel generalizing s with
  | zero => rfl
  | succ n ih =>
    unfold getFilePathName
    simpa using ih (stepPath s)

/-- When `packages/README.md` exists (oracle true on the empty path), the
walk terminates from every starting path with a README-bearing directory. -/
theorem getFilePathName_terminates_aux (readmeExists : List Char → Bool)
    (hroot : readmeExists [] = true) :
    ∀ n s, s.length ≤ n →
      ∃ fuel d, getFilePathName readmeExists fuel s = some d ∧ readmeExists d = true := by
  intro n
  induction n with
  | zero =>
    intro s hs
    have hnil : s = [] := List.eq_nil_of_length_eq_zero (Nat.le_zero.mp hs)
    subst hnil
    refine ⟨1, [], ?_, hroot⟩
    unfold getFilePathName
    rw [stepPath_nil]
    simp [hroot]
  | succ n ih =>
    intro s hs
    by_cases hex : readmeExists (stepPath s) = true
    · refine ⟨1, stepPath s, ?_, hex⟩
      unfold getFilePathName
      simp [hex]
    · have hne : s ≠ [] := by
        intro hnil
        rw [hnil, stepPath_nil] at hex
        exact hex hroot
      have hlt := stepPath_length_lt hne
      obtain ⟨fuel, d, hd, hex'⟩ := ih (stepPath s) (by omega)
      refine ⟨fuel + 1, d, ?_, hex'⟩
      unfold getFilePathName
      simp only [hex]
      simpa using hd

/-- Stepping once and then walking the chain is walking the chain one
position further. -/
theorem nthDirectoryPath_succ (filePath : List Char) :
    ∀ k, nthDirectoryPath filePath (k + 1) = nthDirectoryPath (stepPath filePath) k
  | 0 => rfl
  | k + 1 => by
    show stepPath (nthDirectoryPath filePath (k + 1))
        = stepPath (nthDirectoryPath (stepPath filePath) k)
    rw [nthDirectoryPath_succ filePath k]

/-- The resolution chain always exhausts: from every starting path it
reaches the empty path (each step strictly shrinks a nonempty path, and
the empty path steps to itself). -/
theorem nthDirectoryPath_reaches_nil (filePath : List Char) :
    ∃ k, nthDirectoryPath filePath k = [] := by
  suffices hgen : ∀ n s, s.length ≤ n → ∃ k, nthDirectoryPath s k = [] from
    hgen filePath.length filePath (le_refl _)
  intro n
  induction n with
  | zero =>
    intro s hs
    have hnil : s = [] := List.eq_nil_of_length_eq_zero (Nat.le_zero.mp hs)
    subst hnil
    exact ⟨0, stepPath_nil⟩
  | succ n ih =>
    intro s hs
    by_cases hne : s = []
    · subst hne
      exact ⟨0, stepPath_nil⟩
    · have hlt := stepPath_length_lt hne
      obtain ⟨k, hk⟩ := ih (stepPath s) (by omega)
      refine ⟨k + 1, ?_⟩
      rw [nthDirectoryPath_succ]
      exact hk

/-! ## Lemmas about the splice machinery -/

theorem lastSuchThat_eq_some (P : Nat → Bool) {n q : Nat} (hq : q ≤ n) (hP : P q = true)
    (hlast : ∀ q', q < q' → q' ≤ n → P q' = false) : lastSuchThat P n = some q := by
  induction n with
  | zero =>
    have hq0 : q = 0 := Nat.le_zero.mp hq
    subst hq0
    simp [lastSuchThat, hP]
  | succ n ih =>
    unfold lastSuchThat
    by_cases hqn : q = n + 1
    · subst hqn
      simp [hP]
    · have hq' : q ≤ n := by omega
      have hPn : P (n + 1) = false := hlast (n + 1) (by omega) (le_refl _)
      rw [hPn]
      simp only [Bool.false_eq_true, if_false]
      exact ih hq' (fun q' h1 h2 => hlast q' h1 (by omega))

theorem lastSuchThat_spec {P : Nat → Bool} {n q : Nat} (h : lastSuchThat P n = some q) :
    q ≤ n ∧ P q = true ∧ ∀ q', q < q' → q' ≤ n → P q' = false := by
  induction n with
  | zero =>
    unfold lastSuchThat at h
    by_cases h0 : P 0 = true
    · simp [h0] at h
      refine ⟨by omega, by rw [← h]; exact h0, ?_⟩
      intro q' h1 h2
      omega
    · simp only [Bool.not_eq_true] at h0
      simp [h0] at h
  | succ n ih =>
    unfold lastSuchThat at h
    by_cases hn : P (n + 1) = true
    · simp [hn] at h
      subst h
      exact ⟨le_refl _, hn, fun q' h1 h2 => by omega⟩
    · simp only [Bool.not_eq_true] at hn
      simp [hn] at h
      obtain ⟨hq, hP, hlast⟩ := ih h
      refine ⟨by omega, hP, ?_⟩
      intro q' h1 h2
      by_cases hq' : q' = n + 1
      · subst hq'; exact hn
      · exact hlast q' h1 (by omega)

theorem lastSuchThat_none {P : Nat → Bool} {n : Nat} (h : lastSuchThat P n = none) :
    ∀ q, q ≤ n → P q = false := by
  induction n with
  | zero =>
    unfold lastSuchThat at h
    intro q hq
    have hq0 : q = 0 := Nat.le_zero.mp hq
    subst hq0
    by_cases h0 : P 0 = true
    · simp [h0] at h
    · simpa using h0
  | succ n ih =>
    unfold lastSuchThat at h
    by_cases hn : P (n + 1) = true
    · simp [hn] at h
    · simp only [Bool.not_eq_true] at hn
      simp [hn] at h
      intro q hq
      by_cases hq' : q = n + 1
      · subst hq'; exact hn
      · exact ih h q (by omega)

theorem firstSuchThatAux_eq_some {P : Nat → Bool} {fuel i p : Nat}
    (hip : i ≤ p) (hlt : p < i + fuel) (hP : P p = true)
    (hmin : ∀ j, i ≤ j → j < p → P j = false) :
    firstSuchThatAux P fuel i = some p := by
  induction fuel generalizing i with
  | zero => omega
  | succ fuel ih =>
    unfold firstSuchThatAux
    by_cases hipeq : i = p
    · subst hipeq
      simp [hP]
    · have hPi : P i = false := hmin i (le_refl _) (by omega)
      rw [hPi]
      simp only [Bool.false_eq_true, if_false]
      exact ih (by omega) (by omega) (fun j h1 h2 => hmin j (by omega) h2)

theorem firstSuchThatAux_spec {P : Nat → Bool} {fuel i p : Nat}
    (h : firstSuchThatAux P fuel i = some p) :
    i ≤ p ∧ p < i + fuel ∧ P p = true ∧ ∀ j, i ≤ j → j < p → P j = false := by
  induction fuel generalizing i with
  | zero => simp [firstSuchThatAux] at h
  | succ fuel ih =>
    unfold firstSuchThatAux at h
    by_cases hi : P i = true
    · simp [hi] at h
      subst h
      exact ⟨le_refl _, by omega, hi, fun j h1 h2 => by omega⟩
    · simp only [Bool.not_eq_true] at hi
      simp [hi] at h
      obtain ⟨h1, h2, h3, h4⟩ := ih h
      refine ⟨by omega, by omega, h3, ?_⟩
      intro j hj1 hj2
      by_cases hji : j = i
      · subst hji; exact hi
      · exact h4 j (by omega) hj2

theorem firstSuchThat_eq_some {P : Nat → Bool} {n p : Nat}
    (hlt : p < n) (hP : P p = true) (hmin : ∀ j, j < p → P j = false) :
    firstSuchThat P n = some p :=
  firstSuchThatAux_eq_some (Nat.zero_le p) (by omega) hP (fun j _ hj => hmin j hj)

theorem firstSuchThat_spec {P : Nat → Bool} {n p : Nat} (h : firstSuchThat P n = some p) :
    p < n ∧ P p = true ∧ ∀ j, j < p → P j = false := by
  obtain ⟨h1, h2, h3, h4⟩ := firstSuchThatAux_spec h
  exact ⟨by omega, h3, fun j hj => h4 j (Nat.zero_le j) hj⟩

theorem isPrefixOf_length_le {t u : List Char} (h : t.isPrefixOf u = true) :
    t.length ≤ u.length :=
  (List.isPrefixOf_iff_prefix.mp h).length_le

theorem drop_eq_append_of_isPrefixOf {t s : List Char} {i : Nat}
    (h : t.isPrefixOf (s.drop i) = true) :
    s.drop i = t ++ s.drop (i + t.length) := by
  have hp := List.isPrefixOf_iff_prefix.mp h
  rw [List.prefix_iff_eq_take] at hp
  conv_lhs => rw [← List.take_append_drop t.length (s.drop i)]
  rw [← hp, List.drop_drop]

theorem endMatchAt_le_length {s : List Char} {q : Nat} (h : endMatchAt s q = true) :
    q + endReplacerToken.length ≤ s.length := by
  unfold endMatchAt at h
  simp only [Bool.and_eq_true] at h
  have hlen := isPrefixOf_length_le h.1
  rw [List.length_drop] at hlen
  have hne : endReplacerToken.length ≠ 0 := by decide
  omega

theorem endMatchAt_false_of_lt {s : List Char} {q : Nat}
    (h : s.length < q + endReplacerToken.length) : endMatchAt s q = false := by
  cases he : endMatchAt s q with
  | false => rfl
  | true => exact absurd (endMatchAt_le_length he) (by omega)

theorem startMatchAt_le_length {s : List Char} {p : Nat} (h : startMatchAt s p = true) :
    p + startReplacerToken.length + 1 ≤ s.length := by
  unfold startMatchAt at h
  simp only [Bool.and_eq_true] at h
  have hlen := isPrefixOf_length_le h.2
  rw [List.length_drop, List.length_append] at hlen
  have hne : startReplacerToken.length ≠ 0 := by decide
  simp only [List.length_cons, List.length_nil] at hlen
  omega

theorem getSubstitution_no_dollar (m b a g : List Char) {l : List Char} (h : '$' ∉ l) :
    getSubstitution m b a g l = l := by
  induction l with
  | nil => rfl
  | cons c rest ih =>
    have hc : ¬(c = '$') := fun e => h (e ▸ List.mem_cons_self c rest)
    have hr : '$' ∉ rest := fun hm => h (List.mem_cons_of_mem c hm)
    unfold getSubstitution
    rw [if_neg hc, ih hr]

/-- The single match of the splice regex: from the first `^<start>\n`
position `p` to the last `<end>$` position `q`, the replace yields
`before ++ substitution ++ after`. -/
theorem replaceGeneratedRegion_eq (table s : List Char) (p q : Nat)
    (h1 : startMatchAt s p = true) (h2 : endMatchAt s q = true)
    (h3 : p + startReplacerToken.length + 1 ≤ q)
    (h4 : ∀ q', q < q' → endMatchAt s q' = false)
    (h5 : ∀ p', p' < p → startMatchAt s p' = false) :
    replaceGeneratedRegion table s
      = s.take p
        ++ getSubstitution ((s.take (q + endReplacerToken.length)).drop p) (s.take p)
            (s.drop (q + endReplacerToken.length)) (group1At s p q) (replTemplate table)
        ++ s.drop (q + endReplacerToken.length) := by
  have hqlen : q + endReplacerToken.length ≤ s.length := endMatchAt_le_length h2
  have hlast : lastSuchThat (endMatchAt s) s.length = some q :=
    lastSuchThat_eq_some _ (by omega) h2 (fun q' hq' _ => h4 q' hq')
  have hplen := startMatchAt_le_length h1
  have hfirst : firstSuchThat
      (fun p' => startMatchAt s p'
        && decide (p' + startReplacerToken.length + 1 ≤ q)) (s.length + 1) = some p := by
    apply firstSuchThat_eq_some (by omega)
    · simp [h1, h3]
    · intro j hj
      simp [h5 j hj]
  simp only [replaceGeneratedRegion, hlast, hfirst]

/-! ### Matching the sentinel assertions on decomposed strings -/

theorem no_dollar_startReplacerToken : '$' ∉ startReplacerToken := by decide

theorem no_dollar_endReplacerToken : '$' ∉ endReplacerToken := by decide

theorem no_dollar_replTemplate {table : List Char} (h : '$' ∉ table) :
    '$' ∉ replTemplate table := by
  unfold replTemplate
  intro hm
  rcases List.mem_append.mp hm with hm1 | hm2
  · rcases List.mem_append.mp hm1 with hm3 | hm4
    · exact no_dollar_startReplacerToken hm3
    · rcases List.mem_cons.mp hm4 with he | hm5
      · exact absurd he (by decide)
      · exact h hm5
  · rcases List.mem_cons.mp hm2 with he | hm6
    · exact absurd he (by decide)
    · exact no_dollar_endReplacerToken hm6

/-- The start assertion holds at the junction `B ++ (<start> ++ '\n' :: rest)`
when `B` is empty or ends with a newline. -/
theorem startMatchAt_of_append {B rest : List Char} {p : Nat} (hp : B.length = p)
    (hB : B = [] ∨ B.getLast? = some '\n') :
    startMatchAt (B ++ (startReplacerToken ++ '\n' :: rest)) p = true := by
  unfold startMatchAt lineStartAt
  have hdrop : (B ++ (startReplacerToken ++ '\n' :: rest)).drop p
      = startReplacerToken ++ '\n' :: rest := List.drop_left' hp
  have hpre : (startReplacerToken ++ ['\n']).isPrefixOf
      (startReplacerToken ++ '\n' :: rest) = true := by
    rw [List.isPrefixOf_iff_prefix]
    have hre : startReplacerToken ++ ['\n'] ++ rest = startReplacerToken ++ '\n' :: rest := by
      simp
    rw [← hre]
    exact List.prefix_append _ _
  rw [hdrop, hpre]
  rcases hB with hBnil | hBlast
  · subst hBnil
    simp at hp
    subst hp
    simp
  · have hne : B ≠ [] := by
      intro hnil
      rw [hnil] at hBlast
      simp at hBlast
    have hpos : 0 < B.length := List.length_pos.mpr hne
    have hget : (B ++ (startReplacerToken ++ '\n' :: rest)).get? (p - 1) = some '\n' := by
      rw [List.get?_append (by omega)]
      rw [← hp]
      rw [← List.getLast?_eq_get?]
      exact hBlast
    rw [hget]
    simp

/-- The end assertion holds at the junction `B ++ (<end> ++ A)` when `A` is
empty or starts with a newline. -/
theorem endMatchAt_of_append {B A : List Char} {q : Nat} (hq : B.length = q)
    (hA : A = [] ∨ A.head? = some '\n') :
    endMatchAt (B ++ (endReplacerToken ++ A)) q = true := by
  unfold endMatchAt lineEndAt
  have hdrop : (B ++ (endReplacerToken ++ A)).drop q = endReplacerToken ++ A :=
    List.drop_left' hq
  have hpre : endReplacerToken.isPrefixOf (endReplacerToken ++ A) = true := by
    rw [List.isPrefixOf_iff_prefix]
    exact List.prefix_append _ _
  rw [hdrop, hpre]
  have hassoc : B ++ (endReplacerToken ++ A) = (B ++ endReplacerToken) ++ A :=
    (List.append_assoc _ _ _).symm
  have hlen : (B ++ endReplacerToken).length = q + endReplacerToken.length := by
    simp [hq]
  rcases hA with hAnil | hAhead
  · subst hAnil
    have hl : (B ++ (endReplacerToken ++ ([] : List Char))).length
        = q + endReplacerToken.length := by
      simp [← hq]
    rw [hl]
    simp
  · have hget : (B ++ (endReplacerToken ++ A)).get? (q + endReplacerToken.length)
        = some '\n' := by
      rw [hassoc, List.get?_append_right (by omega)]
      rw [hlen]
      simp only [Nat.sub_self]
      cases A with
      | nil => simp at hAhead
      | cons a A' =>
        simp at hAhead
        simp [hAhead]
    rw [hget]
    simp

/-- `isPrefixOf` only inspects the first `t.length` elements. -/
theorem isPrefixOf_eq_of_take_eq {t u v : List Char}
    (h : u.take t.length = v.take t.length) : t.isPrefixOf u = t.isPrefixOf v := by
  rw [Bool.eq_iff_iff, List.isPrefixOf_iff_prefix, List.isPrefixOf_iff_prefix,
    List.prefix_iff_eq_take, List.prefix_iff_eq_take, h]

/-- The start assertion at `p` only depends on the first
`p + |start| + 1` characters. -/
theorem startMatchAt_congr {s₁ s₂ : List Char} {p m : Nat}
    (h : s₁.take m = s₂.take m) (hm : p + startReplacerToken.length + 1 ≤ m) :
    startMatchAt s₁ p = startMatchAt s₂ p := by
  unfold startMatchAt lineStartAt
  have hg : s₁.get? (p - 1) = s₂.get? (p - 1) := by
    have e1 : (List.take m s₁).get? (p - 1) = s₁.get? (p - 1) := List.get?_take (by omega)
    have e2 : (List.take m s₂).get? (p - 1) = s₂.get? (p - 1) := List.get?_take (by omega)
    rw [← e1, ← e2, h]
  have hL : (startReplacerToken ++ ['\n']).length = startReplacerToken.length + 1 := by
    simp
  have hmin : (p + (startReplacerToken ++ ['\n']).length) ⊓ m
      = p + (startReplacerToken ++ ['\n']).length := by
    rw [hL]
    omega
  have htk : (s₁.drop p).take (startReplacerToken ++ ['\n']).length
      = (s₂.drop p).take (startReplacerToken ++ ['\n']).length := by
    have e₁ : ((s₁.take m).take (p + (startReplacerToken ++ ['\n']).length)).drop p
        = (s₁.drop p).take (startReplacerToken ++ ['\n']).length := by
      rw [List.take_take, hmin, List.drop_take]
      congr 1
      omega
    have e₂ : ((s₂.take m).take (p + (startReplacerToken ++ ['\n']).length)).drop p
        = (s₂.drop p).take (startReplacerToken ++ ['\n']).length := by
      rw [List.take_take, hmin, List.drop_take]
      congr 1
      omega
    rw [← e₁, ← e₂, h]
  rw [hg, isPrefixOf_eq_of_take_eq htk]

/-- The end assertion only depends on the suffix from its position. -/
theorem endMatchAt_congr {s₁ s₂ : List Char} {q₁ q₂ : Nat}
    (hd : s₁.drop q₁ = s₂.drop q₂) (h₁ : q₁ ≤ s₁.length) (h₂ : q₂ ≤ s₂.length) :
    endMatchAt s₁ q₁ = endMatchAt s₂ q₂ := by
  have hlen : s₁.length - q₁ = s₂.length - q₂ := by
    have := congrArg List.length hd
    simpa [List.length_drop] using this
  unfold endMatchAt lineEndAt
  have hg : s₁.get? (q₁ + endReplacerToken.length)
      = s₂.get? (q₂ + endReplacerToken.length) := by
    rw [← List.get?_drop s₁ q₁, ← List.get?_drop s₂ q₂, hd]
  rw [hd, hg]
  have : (q₁ + endReplacerToken.length == s₁.length)
      = (q₂ + endReplacerToken.length == s₂.length) := by
    by_cases he : q₁ + endReplacerToken.length = s₁.length
    · have he2 : q₂ + endReplacerToken.length = s₂.length := by omega
      simp [he, he2]
    · have he2 : ¬(q₂ + endReplacerToken.length = s₂.length) := by omega
      simp [he, he2]
  rw [this]

/-- A nonempty candidate whose first character differs cannot be a prefix. -/
theorem isPrefixOf_false_of_first_ne {t u : List Char}
    (h : t.get? 0 ≠ u.get? 0) (ht : t ≠ []) : t.isPrefixOf u = false := by
  cases t with
  | nil => exact absurd rfl ht
  | cons a t' =>
    cases u with
    | nil => rfl
    | cons b u' =>
      simp at h
      simp [List.isPrefixOf]
      intro hab
      exact absurd hab h

theorem endReplacerToken_first : endReplacerToken.get? 0 = some '<' := by decide

theorem endReplacerToken_no_early_lt :
    ∀ k < endReplacerToken.length, 1 ≤ k → endReplacerToken.get? k ≠ some '<' := by decide

/-- Exact effect of the splice on a README decomposed around one
well-formed sentinel region, for a `$`-free replacement fragment. -/
theorem replaceGeneratedRegion_decomp (pre mid post table : List Char)
    (hpre : pre = [] ∨ pre.getLast? = some '\n')
    (hpost : post = [] ∨ post.head? = some '\n')
    (hnostart : ∀ p' < pre.length,
      startMatchAt
        (pre ++ (startReplacerToken ++ '\n' :: (mid ++ (endReplacerToken ++ post)))) p' = false)
    (hnoend : ∀ q' ≤ (pre ++ (startReplacerToken ++ '\n' :: (mid ++ (endReplacerToken ++ post)))).length,
      pre.length + startReplacerToken.length + 1 + mid.length < q' →
      endMatchAt
        (pre ++ (startReplacerToken ++ '\n' :: (mid ++ (endReplacerToken ++ post)))) q' = false)
    (htable : '$' ∉ table) :
    replaceGeneratedRegion table
        (pre ++ (startReplacerToken ++ '\n' :: (mid ++ (endReplacerToken ++ post))))
      = pre ++ (replTemplate table ++ post) := by
  set S : List Char :=
    pre ++ (startReplacerToken ++ '\n' :: (mid ++ (endReplacerToken ++ post))) with hSdef
  set q : Nat := pre.length + startReplacerToken.length + 1 + mid.length with hqdef
  have hS2 : S = (pre ++ (startReplacerToken ++ '\n' :: mid)) ++ (endReplacerToken ++ post) := by
    simp [hSdef, List.append_assoc]
  have hB2len : (pre ++ (startReplacerToken ++ '\n' :: mid)).length = q := by
    simp [hqdef]
    omega
  have h1 : startMatchAt S (pre.length) = true :=
    startMatchAt_of_append rfl hpre
  have h2 : endMatchAt S q = true := by
    rw [hS2, ← List.append_assoc]
    rw [List.append_assoc]
    exact endMatchAt_of_append hB2len hpost
  have h3 : pre.length + startReplacerToken.length + 1 ≤ q := by
    omega
  have h4 : ∀ q', q < q' → endMatchAt S q' = false := by
    intro q' hq'
    by_cases hle : q' ≤ S.length
    · exact hnoend q' hle hq'
    · exact endMatchAt_false_of_lt (by omega)
  have h5 : ∀ p', p' < pre.length → startMatchAt S p' = false := hnostart
  have heq := replaceGeneratedRegion_eq table S (pre.length) q h1 h2 h3 h4 h5
  have hsub := getSubstitution_no_dollar
    ((S.take (q + endReplacerToken.length)).drop pre.length) (S.take pre.length)
    (S.drop (q + endReplacerToken.length)) (group1At S (pre.length) q)
    (no_dollar_replTemplate htable)
  rw [hsub] at heq
  have htakeS : S.take pre.length = pre := by
    rw [hSdef]
    exact List.take_left' rfl
  have hS3 : S = ((pre ++ (startReplacerToken ++ '\n' :: mid)) ++ endReplacerToken) ++ post := by
    simp [hSdef, List.append_assoc]
  have hdropS : S.drop (q + endReplacerToken.length) = post := by
    rw [hS3]
    exact List.drop_left' (by simp [hqdef]; omega)
  rw [htakeS, hdropS] at heq
  rw [heq]
  simp [List.append_assoc]

/-- The splice is idempotent for `$`-free replacement fragments. -/
theorem replaceGeneratedRegion_idem (table s : List Char) (htable : '$' ∉ table) :
    replaceGeneratedRegion table (replaceGeneratedRegion table s)
      = replaceGeneratedRegion table s := by
  have hel : endReplacerToken.length = 34 := by decide
  cases hlastE : lastSuchThat (endMatchAt s) s.length with
  | none =>
    have hs : replaceGeneratedRegion table s = s := by
      simp [replaceGeneratedRegion, hlastE]
    rw [hs, hs]
  | some q =>
    cases hfirstS : firstSuchThat
        (fun p => startMatchAt s p && decide (p + startReplacerToken.length + 1 ≤ q))
        (s.length + 1) with
    | none =>
      have hs : replaceGeneratedRegion table s = s := by
        simp [replaceGeneratedRegion, hlastE, hfirstS]
      rw [hs, hs]
    | some p =>
      obtain ⟨hqle, hq, hqlast⟩ := lastSuchThat_spec hlastE
      obtain ⟨hplt, hPp, hpmin⟩ := firstSuchThat_spec hfirstS
      simp only [Bool.and_eq_true, decide_eq_true_eq] at hPp
      obtain ⟨hp, hpq⟩ := hPp
      have h4 : ∀ q', q < q' → endMatchAt s q' = false := by
        intro q' hq'
        by_cases hle : q' ≤ s.length
        · exact hqlast q' hq' hle
        · exact endMatchAt_false_of_lt (by omega)
      have h5 : ∀ p', p' < p → startMatchAt s p' = false := by
        intro p' hp'
        have hfalse := hpmin p' hp'
        have hde : decide (p' + startReplacerToken.length + 1 ≤ q) = true := by
          simp only [decide_eq_true_eq]
          omega
        rw [hde, Bool.and_true] at hfalse
        exact hfalse
      have hqel := endMatchAt_le_length hq
      have hple := startMatchAt_le_length hp
      have hsub := getSubstitution_no_dollar
        ((s.take (q + endReplacerToken.length)).drop p) (s.take p)
        (s.drop (q + endReplacerToken.length)) (group1At s p q)
        (no_dollar_replTemplate htable)
      have hsplice1 : replaceGeneratedRegion table s
          = s.take p ++ replTemplate table ++ s.drop (q + endReplacerToken.length) := by
        rw [replaceGeneratedRegion_eq table s p q hp hq hpq h4 h5, hsub]
      rw [hsplice1]
      -- abbreviations for the first splice's output
      set B : List Char := s.take p with hBdef
      set A : List Char := s.drop (q + endReplacerToken.length) with hAdef
      set O1 : List Char := B ++ replTemplate table ++ A with hO1def
      show replaceGeneratedRegion table O1 = O1
      have hBlen : B.length = p := by
        rw [hBdef, List.length_take]
        omega
      have hAlen : A.length = s.length - (q + endReplacerToken.length) := by
        rw [hAdef, List.length_drop]
      -- the start line of s survives into O1
      have hspre : (startReplacerToken ++ ['\n']).isPrefixOf (s.drop p) = true := by
        have hp' := hp
        unfold startMatchAt at hp'
        exact (Bool.and_eq_true _ _).mp hp' |>.2
      have hsdrop : s.drop p
          = (startReplacerToken ++ ['\n'])
            ++ s.drop (p + (startReplacerToken ++ ['\n']).length) :=
        drop_eq_append_of_isPrefixOf hspre
      have hstake : s.take (p + startReplacerToken.length + 1)
          = B ++ (startReplacerToken ++ ['\n']) := by
        have hs' : s = (B ++ (startReplacerToken ++ ['\n']))
            ++ s.drop (p + (startReplacerToken ++ ['\n']).length) := by
          conv_lhs => rw [← List.take_append_drop p s]
          rw [hsdrop, hBdef]
          simp [List.append_assoc]
        conv_lhs => rw [hs']
        apply List.take_left'
        simp
        omega
      have hO1take : O1.take (p + startReplacerToken.length + 1)
          = B ++ (startReplacerToken ++ ['\n']) := by
        have hO1norm : O1 = (B ++ (startReplacerToken ++ ['\n']))
            ++ (table ++ ('\n' :: (endReplacerToken ++ A))) := by
          simp [hO1def, replTemplate, List.append_assoc]
        rw [hO1norm]
        apply List.take_left'
        simp
        omega
      have htakeeq : O1.take (p + startReplacerToken.length + 1)
          = s.take (p + startReplacerToken.length + 1) := by
        rw [hO1take, hstake]
      -- the second match position
      set q2 : Nat := p + startReplacerToken.length + 1 + table.length + 1 with hq2def
      have hC : O1 = (B ++ (startReplacerToken ++ '\n' :: (table ++ ['\n'])))
          ++ (endReplacerToken ++ A) := by
        simp [hO1def, replTemplate, List.append_assoc]
      have hClen : (B ++ (startReplacerToken ++ '\n' :: (table ++ ['\n']))).length = q2 := by
        simp [hq2def, hBlen]
        omega
      have hO1len : O1.length = q2 + endReplacerToken.length + A.length := by
        rw [hC, List.length_append, hClen, List.length_append]
        omega
      -- the character after the matched region in s
      have hA : A = [] ∨ A.head? = some '\n' := by
        have hq' := hq
        unfold endMatchAt lineEndAt at hq'
        have hq'' := (Bool.and_eq_true _ _).mp hq' |>.2
        rcases (Bool.or_eq_true _ _).mp hq'' with hbe | hbe
        · left
          have : q + endReplacerToken.length = s.length := by
            simpa using hbe
          rw [hAdef]
          exact List.drop_eq_nil_of_le (by omega)
        · right
          have hgv : s.get? (q + endReplacerToken.length) = some '\n' := by
            simpa using hbe
          rw [hAdef, List.head?_drop]
          rw [← List.get?_eq_getElem?]
          exact hgv
      have h1' : startMatchAt O1 p = true := by
        rw [startMatchAt_congr htakeeq (by omega)]
        exact hp
      have h2' : endMatchAt O1 q2 = true := by
        rw [hC]
        exact endMatchAt_of_append hClen hA
      have h3' : p + startReplacerToken.length + 1 ≤ q2 := by
        omega
      have h5' : ∀ p', p' < p → startMatchAt O1 p' = false := by
        intro p' hp'
        rw [startMatchAt_congr htakeeq (by omega)]
        exact h5 p' hp'
      have h4' : ∀ q', q2 < q' → endMatchAt O1 q' = false := by
        intro q' hq'
        by_cases hbig : O1.length < q'
        · exact endMatchAt_false_of_lt (by omega)
        · push_neg at hbig
          by_cases hzone : q' < q2 + endReplacerToken.length
          · -- inside the inserted end token: its first character occurs only at offset 0
            have hk1 : 1 ≤ q' - q2 := by omega
            have hk2 : q' - q2 < endReplacerToken.length := by omega
            have hdropO1 : O1.drop q' = endReplacerToken.drop (q' - q2) ++ A := by
              have hq'eq : q' = (B ++ (startReplacerToken ++ '\n' :: (table ++ ['\n']))).length
                  + (q' - q2) := by
                rw [hClen]
                omega
              have hstep : O1.drop q' = (endReplacerToken ++ A).drop (q' - q2) := by
                conv_lhs => rw [hC, hq'eq]
                rw [List.drop_append]
              rw [hstep, List.drop_append_eq_append_drop]
              have hz : (q' - q2) - endReplacerToken.length = 0 := by omega
              rw [hz]
              simp
            unfold endMatchAt
            rw [hdropO1]
            have hfirstne : endReplacerToken.get? 0
                ≠ (endReplacerToken.drop (q' - q2) ++ A).get? 0 := by
              have hg1 : (endReplacerToken.drop (q' - q2) ++ A).get? 0
                  = endReplacerToken.get? (q' - q2) := by
                rw [List.get?_append]
                · rw [List.get?_drop]
                  simp
                · rw [List.length_drop]
                  omega
              rw [hg1, endReplacerToken_first]
              exact fun hcontra =>
                endReplacerToken_no_early_lt (q' - q2) hk2 hk1 hcontra.symm
            rw [isPrefixOf_false_of_first_ne hfirstne (by decide)]
            rfl
          · -- at or beyond the preserved tail: transfer back to s
            push_neg at hzone
            have hk : q' - (q2 + endReplacerToken.length) ≤ A.length := by
              omega
            have hdropO1 : O1.drop q' = A.drop (q' - (q2 + endReplacerToken.length)) := by
              have hC2 : O1 = ((B ++ (startReplacerToken ++ '\n' :: (table ++ ['\n'])))
                  ++ endReplacerToken) ++ A := by
                rw [hC]
                simp [List.append_assoc]
              have hC2len : ((B ++ (startReplacerToken ++ '\n' :: (table ++ ['\n'])))
                  ++ endReplacerToken).length = q2 + endReplacerToken.length := by
                rw [List.length_append, hClen]
              have hq'eq : q' = ((B ++ (startReplacerToken ++ '\n' :: (table ++ ['\n'])))
                  ++ endReplacerToken).length + (q' - (q2 + endReplacerToken.length)) := by
                rw [hC2len]
                omega
              conv_lhs => rw [hC2, hq'eq]
              rw [List.drop_append]
            have hAdrop : A.drop (q' - (q2 + endReplacerToken.length))
                = s.drop (q + endReplacerToken.length + (q' - (q2 + endReplacerToken.length))) := by
              rw [hAdef, List.drop_drop]
            have hcongr : endMatchAt O1 q'
                = endMatchAt s
                  (q + endReplacerToken.length + (q' - (q2 + endReplacerToken.length))) :=
              endMatchAt_congr (by rw [hdropO1, hAdrop]) (by omega) (by omega)
            rw [hcongr]
            exact h4 _ (by omega)
      have heq2 := replaceGeneratedRegion_eq table O1 p q2 h1' h2' h3' h4' h5'
      have hsub2 := getSubstitution_no_dollar
        ((O1.take (q2 + endReplacerToken.length)).drop p) (O1.take p)
        (O1.drop (q2 + endReplacerToken.length)) (group1At O1 p q2)
        (no_dollar_replTemplate htable)
      rw [hsub2] at heq2
      have hO1takep : O1.take p = B := by
        have : O1 = B ++ (replTemplate table ++ A) := by
          rw [hO1def, List.append_assoc]
        rw [this]
        exact List.take_left' hBlen
      have hO1dropq2 : O1.drop (q2 + endReplacerToken.length) = A := by
        have hC2 : O1 = ((B ++ (startReplacerToken ++ '\n' :: (table ++ ['\n'])))
            ++ endReplacerToken) ++ A := by
          rw [hC]
          simp [List.append_assoc]
        rw [hC2]
        exact List.drop_left' (by rw [List.length_append, hClen])
      rw [hO1takep, hO1dropq2] at heq2
      exact heq2

/-! ## Lemmas about sorting and the per-directory writer -/

theorem mem_insertCmp {cmp : α → α → Int} {x y : α} {l : List α}
    (h : y ∈ insertCmp cmp x l) : y = x ∨ y ∈ l := by
  induction l with
  | nil =>
    simp [insertCmp] at h
    exact Or.inl h
  | cons z zs ih =>
    unfold insertCmp at h
    by_cases hc : cmp x z < 0
    · rw [if_pos hc] at h
      rcases List.mem_cons.mp h with h1 | h2
      · exact Or.inl h1
      · exact Or.inr h2
    · rw [if_neg hc] at h
      rcases List.mem_cons.mp h with h1 | h2
      · exact Or.inr (List.mem_cons.mpr (Or.inl h1))
      · rcases ih h2 with h3 | h4
        · exact Or.inl h3
        · exact Or.inr (List.mem_cons.mpr (Or.inr h4))

theorem mem_foldl_insertCmp {cmp : α → α → Int} {y : α} :
    ∀ (l acc : List α), y ∈ l.foldl (fun acc x => insertCmp cmp x acc) acc →
      y ∈ acc ∨ y ∈ l := by
  intro l
  induction l with
  | nil =>
    intro acc hacc
    exact Or.inl hacc
  | cons z zs ih =>
    intro acc hacc
    simp only [List.foldl_cons] at hacc
    rcases ih (insertCmp cmp z acc) hacc with h1 | h2
    · rcases mem_insertCmp h1 with h3 | h4
      · exact Or.inr (List.mem_cons.mpr (Or.inl h3))
      · exact Or.inl h4
    · exact Or.inr (List.mem_cons.mpr (Or.inr h2))

theorem mem_sortStable {cmp : α → α → Int} {y : α} {l : List α}
    (h : y ∈ sortStable cmp l) : y ∈ l := by
  rcases mem_foldl_insertCmp l [] h with h1 | h2
  · simp at h1
  · exact h2

theorem readmeDestinationPath_injective {d₁ d₂ : List Char}
    (h : readmeDestinationPath d₁ = readmeDestinationPath d₂) : d₁ = d₂ := by
  unfold readmeDestinationPath at h
  simp only [List.append_assoc] at h
  have h1 := List.append_cancel_left h
  exact List.append_cancel_right h1

/-! ## Claims -/

/-- Claim C1, counterexample: the claim asserts that `getFilePathName`
terminates on EVERY source file path, returning the empty string once the
path is exhausted without finding a README.  Under the filesystem oracle
with no README anywhere, the recursion never returns for the concrete path
`packages/mdc-menu/menu.ts`: the walk reaches the empty path, whose
resolution step is a self-loop, so no recursion depth ever produces a
result (in particular the empty string is never returned normally). -/
theorem C1_counterexample :
    ¬ ∃ fuel d, getFilePathName (fun _ => false) fuel
      (("packages/mdc-menu/menu.ts").data) = some d := by
  intro hex
  obtain ⟨fuel, d, hd⟩ := hex
  rw [getFilePathName_noReadme] at hd
  exact Option.noConfusion hd

/-- Claim C1 (amended): whenever SOME directory along the resolution chain
of a source file path has a README at `packages/<path>/README.md`, the
walk of `getFilePathName` terminates and returns the FIRST such directory
of the chain.  (When no chain directory has a README, the recursion never
returns, per the counterexample; the chain itself always exhausts, see
`nthDirectoryPath_reaches_nil`, but exhaustion loops on the empty path
instead of returning the empty string.) -/
theorem C1_resolution_terminates (readmeExists : List Char → Bool) (filePath : List Char)
    (k : Nat) (hk : readmeExists (nthDirectoryPath filePath k) = true) :
    ∃ k0 fuel, k0 ≤ k
      ∧ readmeExists (nthDirectoryPath filePath k0) = true
      ∧ (∀ j, j < k0 → readmeExists (nthDirectoryPath filePath j) = false)
      ∧ getFilePathName readmeExists fuel filePath
          = some (nthDirectoryPath filePath k0) := by
  induction k generalizing filePath with
  | zero =>
    refine ⟨0, 1, le_refl _, hk, fun j hj => absurd hj (by omega), ?_⟩
    unfold getFilePathName
    simp only [nthDirectoryPath] at hk ⊢
    simp [hk]
  | succ k ih =>
    by_cases h0 : readmeExists (stepPath filePath) = true
    · refine ⟨0, 1, by omega, ?_, fun j hj => absurd hj (by omega), ?_⟩
      · simpa only [nthDirectoryPath] using h0
      · unfold getFilePathName
        simp only [nthDirectoryPath]
        simp [h0]
    · rw [Bool.not_eq_true] at h0
      have hk' : readmeExists (nthDirectoryPath (stepPath filePath) k) = true := by
        rw [← nthDirectoryPath_succ]
        exact hk
      obtain ⟨k0, fuel, hle, hex, hmin, hrun⟩ := ih (stepPath filePath) hk'
      refine ⟨k0 + 1, fuel + 1, by omega, ?_, ?_, ?_⟩
      · rw [nthDirectoryPath_succ]
        exact hex
      · intro j hj
        cases j with
        | zero => simpa only [nthDirectoryPath] using h0
        | succ j' =>
          rw [nthDirectoryPath_succ]
          exact hmin j' (by omega)
      · unfold getFilePathName
        simp only [h0, Bool.false_eq_true, if_false]
        rw [nthDirectoryPath_succ]
        exact hrun

/-- Witness for C1, the program's ordinary success case: a README exists
only at the intermediate directory `mdc-menu` (none at the packages root),
and resolution of `packages/mdc-menu/menu.ts` terminates at the first
chain element, returning `mdc-menu` (concretely at fuel 1). -/
theorem C1_witness :
    (fun d : List Char => d == ("mdc-menu").data)
        (nthDirectoryPath (("packages/mdc-menu/menu.ts").data) 0) = true
    ∧ getFilePathName (fun d : List Char => d == ("mdc-menu").data) 1
        (("packages/mdc-menu/menu.ts").data) = some (("mdc-menu").data)
    ∧ ∃ k0 fuel, k0 ≤ 0
        ∧ (fun d : List Char => d == ("mdc-menu").data)
            (nthDirectoryPath (("packages/mdc-menu/menu.ts").data) k0) = true
        ∧ (∀ j, j < k0 → (fun d : List Char => d == ("mdc-menu").data)
            (nthDirectoryPath (("packages/mdc-menu/menu.ts").data) j) = false)
        ∧ getFilePathName (fun d : List Char => d == ("mdc-menu").data) fuel
            (("packages/mdc-menu/menu.ts").data)
          = some (nthDirectoryPath (("packages/mdc-menu/menu.ts").data) k0) :=
  ⟨by decide, by decide,
   C1_resolution_terminates (fun d : List Char => d == ("mdc-menu").data)
     (("packages/mdc-menu/menu.ts").data) 0 (by decide)⟩

/-- Claim C3: with docData present, a method or property of a module
appears in the Transformer output exactly when it is documented and
neither protected nor static — the kept sublist is precisely the filter by
that predicate, mapped to output entries, in order. -/
theorem C3_member_filter (ms : List RawMethod) (ps : List RawProperty) :
    getDocumentationForMethods true (some ms)
      = (ms.filter (fun m => m.signatures0.documentation.isSome
          && !m.flags.isProtected && !m.flags.isStatic)).map methodEntryOf
    ∧ getDocumentationProperties true (some ps)
      = (ps.filter (fun p => p.documentation.isSome
          && !p.flags.isProtected && !p.flags.isStatic)).map propertyEntryOf := by
  have hb : ∀ a b c : Bool, (!a && !b && c) = (c && !a && !b) := by decide
  constructor
  · unfold getDocumentationForMethods
    simp only [Bool.not_true, Option.isNone_some, Bool.or_self, Bool.false_or,
      if_false, Option.getD_some, Bool.false_eq_true]
    congr 1
    apply List.filter_congr
    intro m _
    unfold shouldIgnoreDocumentationItem
    exact hb _ _ _
  · unfold getDocumentationProperties
    simp only [Bool.not_true, Option.isNone_some, Bool.or_self, Bool.false_or,
      if_false, Option.getD_some, Bool.false_eq_true]
    congr 1
    apply List.filter_congr
    intro p _
    unfold shouldIgnoreDocumentationItem
    exact hb _ _ _

/-- Claim C4, counterexample: the splice is NOT idempotent for every
rendered fragment.  With the fragment `$&` (an active ECMAScript
substitution escape inserting the whole matched text), the second pass
re-expands the now-larger matched region, so applying the splice twice to
a README with one sentinel region differs from applying it once. -/
theorem C4_counterexample :
    replaceGeneratedRegion (("$&").data) (replaceGeneratedRegion (("$&").data) exampleReadme)
      ≠ replaceGeneratedRegion (("$&").data) exampleReadme := by
  decide

/-- Claim C4 (amended): the splice is idempotent for every README and every
rendered fragment containing no `$` character (for such fragments the
replacement string is inserted verbatim; Handlebars output containing `$`
escapes breaks idempotence, as the counterexample shows). -/
theorem C4_idempotent_no_dollar (table s : List Char) (htable : '$' ∉ table) :
    replaceGeneratedRegion table (replaceGeneratedRegion table s)
      = replaceGeneratedRegion table s :=
  replaceGeneratedRegion_idem table s htable

/-- Witness for C4 at a `$`-free fragment and the concrete README. -/
theorem C4_witness :
    '$' ∉ (("TABLE").data)
    ∧ replaceGeneratedRegion (("TABLE").data)
        (replaceGeneratedRegion (("TABLE").data) exampleReadme)
      = replaceGeneratedRegion (("TABLE").data) exampleReadme :=
  ⟨by decide, C4_idempotent_no_dollar (("TABLE").data) exampleReadme (by decide)⟩

/-- Claim C5, counterexample: the splice does not replace the placeholder
with the rendered fragment verbatim for EVERY fragment: with the fragment
`$&` the inserted text is the ECMAScript substitution of the template, not
the template itself. -/
theorem C5_counterexample :
    replaceGeneratedRegion (("$&").data) exampleReadme ≠ replTemplate (("$&").data) := by
  decide

/-- Claim C5 (amended): for a README `pre ++ <start> ++ '\n' ++ mid ++
<end> ++ post` whose start sentinel sits at a line start, whose end
sentinel sits at a line end, with no start-sentinel line in `pre` and no
end-sentinel line end after the region, and for a `$`-free fragment, the
splice replaces exactly the text between the sentinels with the fragment,
preserving both sentinel lines and all text outside the region. -/
theorem C5_splice_exact (pre mid post table : List Char)
    (hpre : pre = [] ∨ pre.getLast? = some '\n')
    (hpost : post = [] ∨ post.head? = some '\n')
    (hnostart : ∀ p' < pre.length,
      startMatchAt
        (pre ++ (startReplacerToken ++ '\n' :: (mid ++ (endReplacerToken ++ post)))) p' = false)
    (hnoend : ∀ q' ≤ (pre ++ (startReplacerToken ++ '\n' :: (mid ++ (endReplacerToken ++ post)))).length,
      pre.length + startReplacerToken.length + 1 + mid.length < q' →
      endMatchAt
        (pre ++ (startReplacerToken ++ '\n' :: (mid ++ (endReplacerToken ++ post)))) q' = false)
    (htable : '$' ∉ table) :
    replaceGeneratedRegion table
        (pre ++ (startReplacerToken ++ '\n' :: (mid ++ (endReplacerToken ++ post))))
      = pre ++ (replTemplate table ++ post) :=
  replaceGeneratedRegion_decomp pre mid post table hpre hpost hnostart hnoend htable

/-- Witness for C5 on a concrete README with text before and after the
sentinel region. -/
theorem C5_witness :
    ((("intro\n").data : List Char).getLast? = some '\n')
    ∧ replaceGeneratedRegion (("TABLE").data)
        ((("intro\n").data)
          ++ (startReplacerToken ++ '\n' :: ((("old").data)
            ++ (endReplacerToken ++ (("\ntail").data)))))
      = (("intro\n").data) ++ (replTemplate (("TABLE").data) ++ (("\ntail").data)) :=
  ⟨by decide,
   C5_splice_exact (("intro\n").data) (("old").data) (("\ntail").data) (("TABLE").data)
     (Or.inr (by decide)) (Or.inr (by decide)) (by decide) (by decide) (by decide)⟩

/-- Claim C6: a module record whose three member lists are all empty never
reaches the list handed to the template renderer. -/
theorem C6_empty_record_excluded (mods : List ModuleMarkdown) (m : ModuleMarkdown)
    (h1 : m.methods = []) (h2 : m.properties = []) (h3 : m.events = []) :
    m ∉ modulesForRender mods := by
  intro hmem
  have hin := mem_sortStable hmem
  rw [List.mem_filter] at hin
  have hpred := hin.2
  rw [h1, h2, h3] at hpred
  simp at hpred

/-- Witness for C6: a concrete all-empty record is dropped. -/
theorem C6_witness :
    exampleModule (("MDCEmpty").data) ∉ modulesForRender [exampleModule (("MDCEmpty").data)] :=
  C6_empty_record_excluded [exampleModule (("MDCEmpty").data)]
    (exampleModule (("MDCEmpty").data)) rfl rfl rfl

/-- Claim C7: `cleanComment` yields a string with no newline, of the same
length, agreeing with the input at every non-newline position and holding
a single space at every newline position. -/
theorem C7_clean_comment (comment : List Char) :
    '\n' ∉ cleanComment comment
    ∧ (cleanComment comment).length = comment.length
    ∧ ∀ i, (comment.get? i ≠ some '\n' → (cleanComment comment).get? i = comment.get? i)
      ∧ (comment.get? i = some '\n' → (cleanComment comment).get? i = some ' ') := by
  refine ⟨?_, ?_, ?_⟩
  · intro hmem
    unfold cleanComment at hmem
    rw [List.mem_map] at hmem
    obtain ⟨c, _, hc⟩ := hmem
    by_cases hcn : c = '\n'
    · rw [if_pos hcn] at hc
      exact absurd hc (by decide)
    · rw [if_neg hcn] at hc
      exact hcn hc
  · exact List.length_map comment _
  · intro i
    constructor
    · intro hne
      unfold cleanComment
      rw [List.get?_map]
      cases hgi : comment.get? i with
      | none => rfl
      | some c =>
        rw [hgi] at hne
        have hcn : ¬(c = '\n') := fun hc => hne (by rw [hc])
        simp [hcn]
    · intro heq
      unfold cleanComment
      rw [List.get?_map, heq]
      simp

/-- Witness for C7 on the comment `a\nb` at positions 0 and 1. -/
theorem C7_witness :
    '\n' ∉ cleanComment (("a\nb").data)
    ∧ ((("a\nb").data : List Char).get? 0 ≠ some '\n')
    ∧ (cleanComment (("a\nb").data)).get? 0 = (("a\nb").data : List Char).get? 0
    ∧ (cleanComment (("a\nb").data)).get? 1 = some ' ' :=
  ⟨(C7_clean_comment (("a\nb").data)).1,
   by decide,
   ((C7_clean_comment (("a\nb").data)).2.2 0).1 (by decide),
   ((C7_clean_comment (("a\nb").data)).2.2 1).2 (by decide)⟩

/-- Claim C8: a directory-group key not matched by the allow-list produces
no README read or write: its destination path never appears among the
paths accessed by `generateMarkdownFileFromBuffer` (each returned entry is
both the read and the written path of one allow-listed group).  In
particular the empty key of failed resolutions is never accessed. -/
theorem C8_not_allowlisted_not_written (render : List ModuleMarkdown → List Char)
    (readFs : List Char → List Char) (buffer : List (List Char × List ModuleMarkdown))
    (dir : List Char)
    (h : allowList.any (fun allowed => jsIncludes allowed dir) = false) :
    readmeDestinationPath dir ∉ (generateMarkdownFileFromBuffer render readFs buffer).map Prod.fst := by
  intro hmem
  rw [List.mem_map] at hmem
  obtain ⟨out, hout, hfst⟩ := hmem
  unfold generateMarkdownFileFromBuffer at hout
  rw [List.mem_filterMap] at hout
  obtain ⟨entry, hentry, hsome⟩ := hout
  by_cases hallow : allowList.any (fun allowed => jsIncludes allowed entry.fst) = true
  · rw [if_pos hallow] at hsome
    have hout2 : (readmeDestinationPath entry.fst,
        insertMethodDescriptionTable render entry.snd
          (readFs (readmeDestinationPath entry.fst))) = out := by
      injection hsome
    have hfsteq : readmeDestinationPath entry.fst = readmeDestinationPath dir := by
      rw [← hout2] at hfst
      exact hfst
    have hdir := readmeDestinationPath_injective hfsteq
    rw [hdir, h] at hallow
    exact Bool.false_ne_true hallow
  · rw [Bool.not_eq_true] at hallow
    rw [if_neg (by rw [hallow]; exact Bool.false_ne_true)] at hsome
    exact Option.noConfusion hsome

/-- Witness for C8: the empty key (failed directory resolution) is not
accessed even when present in the buffer alongside an allow-listed key. -/
theorem C8_witness :
    allowList.any (fun allowed => jsIncludes allowed ([] : List Char)) = false
    ∧ readmeDestinationPath []
      ∉ (generateMarkdownFileFromBuffer (fun _ => []) (fun _ => [])
          [([], []), ((("mdc-drawer").data), [])]).map Prod.fst :=
  ⟨by decide,
   C8_not_allowlisted_not_written (fun _ => []) (fun _ => [])
     [([], []), ((("mdc-drawer").data), [])] [] (by decide)⟩

/-- Claim C9: a README in which the sentinel pattern matches nowhere (no
start-sentinel line start with a compatible later end-sentinel line end)
passes through the splice unchanged, whatever the fragment. -/
theorem C9_no_sentinel_unchanged {readme : List Char}
    (h : hasSentinelRegion readme = false) (table : List Char) :
    replaceGeneratedRegion table readme = readme := by
  cases hlast : lastSuchThat (endMatchAt readme) readme.length with
  | none => simp [replaceGeneratedRegion, hlast]
  | some q =>
    cases hfirst : firstSuchThat
        (fun p => startMatchAt readme p
          && decide (p + startReplacerToken.length + 1 ≤ q)) (readme.length + 1) with
    | none => simp [replaceGeneratedRegion, hlast, hfirst]
    | some p =>
      exfalso
      obtain ⟨hqle, hPq, _⟩ := lastSuchThat_spec hlast
      obtain ⟨hplt, hPp, _⟩ := firstSuchThat_spec hfirst
      simp only [Bool.and_eq_true, decide_eq_true_eq] at hPp
      have htrue : hasSentinelRegion readme = true := by
        unfold hasSentinelRegion
        rw [List.any_eq_true]
        refine ⟨p, List.mem_range.mpr (by omega), ?_⟩
        rw [Bool.and_eq_true]
        refine ⟨hPp.1, ?_⟩
        rw [List.any_eq_true]
        refine ⟨q, List.mem_range.mpr (by omega), ?_⟩
        rw [Bool.and_eq_true]
        exact ⟨hPq, by simp [hPp.2]⟩
      rw [h] at htrue
      exact Bool.false_ne_true htrue

/-- Witness for C9 on a README with no sentinels. -/
theorem C9_witness :
    hasSentinelRegion (("hello\nworld").data) = false
    ∧ replaceGeneratedRegion (("TABLE").data) (("hello\nworld").data)
      = ("hello\nworld").data :=
  ⟨by decide, C9_no_sentinel_unchanged (by decide) (("TABLE").data)⟩

/-- Claim C10: a module record lacking a documentation block, or whose
documentation has no `contents`, makes `getDocumentationForModule` return
the record with an empty events list through the early guard — it never
reaches (and never fails in) the events-extraction branch that
dereferences `documentation.contents`. -/
theorem C10_missing_documentation_safe (hasDocData : Bool) (m : RawEsModule)
    (h : m.documentation = none ∨ ∃ d, m.documentation = some d ∧ d.contents = none) :
    getDocumentationForModule hasDocData m = some { events := [] } := by
  unfold getDocumentationForModule
  rcases h with h1 | hex
  · rw [h1]
    simp
  · obtain ⟨d, h2, h3⟩ := hex
    rw [h2]
    simp [h3]

/-- Witness for C10 on a concrete record with no documentation. -/
theorem C10_witness :
    undocumentedEsModule.documentation = none
    ∧ getDocumentationForModule true undocumentedEsModule = some { events := [] } :=
  ⟨rfl, C10_missing_documentation_safe true undocumentedEsModule (Or.inl rfl)⟩

end Tsdoc
